import Mathlib

/-!
Verification of the bskySearch incremental search-and-merge pipeline.

This file gives a shallow embedding, in Lean 4, of the data model and the
operations of the client's merge/dedup/filter/sort pipeline
(`src/utils.mjs`), the ingest store and orchestrator logic
(`src/search.mjs`), the bounded caches (`src/cache.mjs`, `api/search.js`)
and the generation-token staleness discipline (`src/state.mjs`), together
with theorems settling the specification's claims about them.

Modelling conventions:
- JavaScript numbers that hold epoch milliseconds or like counts are
  modelled as `Int` (the code only ever compares and subtracts them).
- A JavaScript value that may be `undefined`/absent is an `Option`.
- A date string is modelled by `DateVal`: `absent` stands for a missing or
  empty (falsy) string, `malformed` for a non-empty string that does not
  parse (`new Date(s).getTime()` is `NaN`), and `time t` for a string that
  parses to epoch milliseconds `t`.
- `Array.prototype.sort` with a comparator is a stable sort in the
  engines the client targets; it is modelled by `List.insertionSort`
  with the corresponding non-strict relation, which computes exactly the
  stable reordering.
- JavaScript `Map` (insertion-ordered) is modelled by an association
  list: insertion of a new key appends, overwrite updates in place, and
  iteration order is list order.
- `String.prototype.toLowerCase` is modelled by `jsToLower`, ASCII case
  folding; all term comparisons in the source are on search terms where
  this is the operative behaviour.
-/

namespace BskySearch

/-- A date-like JavaScript value as consumed by `getPostTimestamp`. -/
inductive DateVal where
  | absent : DateVal
  | malformed : DateVal
  | time : Int → DateVal
deriving DecidableEq

/-- The fields of an upstream post record that the pipeline reads:
identifier, term annotations, like count, and the two time sources. -/
structure Post where
  uri : String
  matchedTerm : String := ""
  matchedTerms : Option (List String) := none
  likeCount : Option Int := none
  createdAt : DateVal := DateVal.absent
  indexedAt : DateVal := DateVal.absent
deriving DecidableEq

/-- ASCII case folding of one character (the behaviour of
`toLowerCase` on the characters search terms are compared by). -/
def lowerChar (c : Char) : Char :=
  if 65 ≤ c.toNat ∧ c.toNat ≤ 90 then Char.ofNat (c.toNat + 32) else c

/-- Model of `String.prototype.toLowerCase`. -/
def jsToLower (s : String) : String := ⟨s.data.map lowerChar⟩

/-- `utils.mjs` `getPostTimestamp`: prefer `post.record?.createdAt`
(falling back to `post.indexedAt` when falsy), parse it, and resolve an
unparseable value to epoch `0`. -/
def getPostTimestamp (p : Post) : Int :=
  let candidate := match p.createdAt with
    | DateVal.absent => p.indexedAt
    | c => c
  match candidate with
  | DateVal.time t => t
  | _ => 0

/-- `post.likeCount || 0`. -/
def likeVal (p : Post) : Int := p.likeCount.getD 0

/-- `utils.mjs` `filterByLikes`. -/
def filterByLikes (posts : List Post) (minLikes : Int) : List Post :=
  posts.filter (fun p => minLikes ≤ likeVal p)

/-- The `Number.isFinite(hours) && hours > 0 ? hours : 24` normalisation
inside `filterByDate`; `none` models a non-finite number. -/
def normalizeHours (hours : Option Int) : Int :=
  match hours with
  | some h => if 0 < h then h else 24
  | none => 24

/-- `utils.mjs` `filterByDate`; `now` makes the call to `Date.now()`
explicit. -/
def filterByDate (now : Int) (posts : List Post) (hours : Option Int) : List Post :=
  posts.filter (fun p => now - normalizeHours hours * 3600000 ≤ getPostTimestamp p)

/-- The order `(a, b) => b.likeCount - a.likeCount` sorts by:
`a` may come before `b` iff `b`'s likes do not exceed `a`'s. -/
def likesGE (a b : Post) : Prop := likeVal b ≤ likeVal a

/-- The order `(a, b) => ts(b) - ts(a)` sorts by. -/
def tsGE (a b : Post) : Prop := getPostTimestamp b ≤ getPostTimestamp a

instance : DecidableRel likesGE := fun a b => inferInstanceAs (Decidable (_ ≤ _))

instance : DecidableRel tsGE := fun a b => inferInstanceAs (Decidable (_ ≤ _))

instance : IsTotal Post likesGE :=
  ⟨fun a b => (Int.le_total (likeVal b) (likeVal a)).imp id id⟩

instance : IsTrans Post likesGE :=
  ⟨fun _ _ _ hab hbc => le_trans hbc hab⟩

instance : IsTotal Post tsGE :=
  ⟨fun a b => (Int.le_total (getPostTimestamp b) (getPostTimestamp a)).imp id id⟩

instance : IsTrans Post tsGE :=
  ⟨fun _ _ _ hab hbc => le_trans hbc hab⟩

/-- `utils.mjs` `sortPosts`: non-mutating stable sort, by derived
timestamp descending for `latest`, by like count descending otherwise. -/
def sortPosts (posts : List Post) (sortMode : String) : List Post :=
  if sortMode = "latest" then List.insertionSort tsGE posts
  else List.insertionSort likesGE posts

/-- Append `x` unless already present: one step of first-occurrence
deduplication (the shape of every `seen`-set accumulation in the source). -/
def addFirst {α : Type} [DecidableEq α] (acc : List α) (x : α) : List α :=
  if x ∈ acc then acc else acc ++ [x]

/-- Keep the first occurrence of every element, in order. -/
def dedupKeepFirst {α : Type} [DecidableEq α] (l : List α) : List α :=
  l.foldl addFirst []

/-- The duplicate branch of `deduplicatePosts`: default `matchedTerms`
to `[matchedTerm]` when unset, then push the duplicate's tag unless
(case-sensitively) already present. -/
def mergeTag (q : Post) (t : String) : Post :=
  let ts := q.matchedTerms.getD [q.matchedTerm]
  { q with matchedTerms := some (if t ∈ ts then ts else ts ++ [t]) }

/-- One iteration of the `for (const post of posts)` loop of
`deduplicatePosts` over the insertion-ordered `seen` map (kept as a list
of canonical posts, keyed by their `uri`). -/
def dedupStep (acc : List Post) (post : Post) : List Post :=
  if acc.any (fun q => q.uri = post.uri) then
    acc.map (fun q => if q.uri = post.uri then mergeTag q post.matchedTerm else q)
  else acc ++ [post]

/-- `utils.mjs` `deduplicatePosts`: group by `uri`, keep the first-seen
post as canonical, merge duplicate tags, and finally default every
missing `matchedTerms` to `[matchedTerm]`. -/
def deduplicatePosts (posts : List Post) : List Post :=
  (posts.foldl dedupStep []).map
    (fun q => { q with matchedTerms := some (q.matchedTerms.getD [q.matchedTerm]) })

/-- The `uri` column of a post list. -/
def urisOf (posts : List Post) : List String := posts.map (fun p => p.uri)

/-- The term tags of the posts carrying a given `uri`, in input order. -/
def tagsFor (u : String) (posts : List Post) : List String :=
  (posts.filter (fun p => p.uri = u)).map (fun p => p.matchedTerm)

/-- The claim's notion of a case-insensitively deduplicated union of
term tags in first-occurrence order, stated from the spec's words for
comparison with what `deduplicatePosts` computes. -/
def ciDedupFirstOccurrence (ts : List String) : List String :=
  ts.foldl (fun acc t => if acc.any (fun x => jsToLower x = jsToLower t) then acc else acc ++ [t]) []

example : deduplicatePosts [] = [] := by decide

example :
    deduplicatePosts
      [{ uri := "at://1", matchedTerm := "t1" }, { uri := "at://1", matchedTerm := "t2" },
       { uri := "at://2", matchedTerm := "t2" }] =
      [{ uri := "at://1", matchedTerm := "t1", matchedTerms := some ["t1", "t2"] },
       { uri := "at://2", matchedTerm := "t2", matchedTerms := some ["t2"] }] := by decide

example :
    deduplicatePosts
      [{ uri := "u", matchedTerm := "React" }, { uri := "u", matchedTerm := "react" }] =
      [{ uri := "u", matchedTerm := "React", matchedTerms := some ["React", "react"] }] := by
  decide

example : ciDedupFirstOccurrence ["React", "react"] = ["React"] := by decide

example :
    sortPosts [{ uri := "a", likeCount := some 5 }, { uri := "b", likeCount := some 50 }] "top" =
      [{ uri := "b", likeCount := some 50 }, { uri := "a", likeCount := some 5 }] := by decide

example :
    filterByDate 0 [{ uri := "a", createdAt := DateVal.time 5 }] (some 1) =
      [{ uri := "a", createdAt := DateVal.time 5 }] := by decide

/-! ## The ingest store (`search.mjs`) -/

/-- `ingestedPostsByUri`: a JavaScript `Map` from `uri` to post, kept as
an insertion-ordered association list. -/
abbrev Store : Type := List (String × Post)

/-- `map.get(u)`. -/
def storeGet (s : Store) (u : String) : Option Post :=
  (List.find? (fun e => e.1 = u) s).map (fun e => e.2)

/-- `map.set(u, p)`: overwrite in place, or append a new key. -/
def storeSet (s : Store) (u : String) (p : Post) : Store :=
  if List.any s (fun e => e.1 = u) then
    List.map (fun e => if e.1 = u then (u, p) else e) s
  else s ++ [(u, p)]

/-- The key column, in insertion order. -/
def storeUris (s : Store) : List String := List.map (fun e => e.1) s

/-- `Array.from(map.values())`, in insertion order. -/
def storeValues (s : Store) : List Post := List.map (fun e => e.2) s

/-- `search.mjs` `getMatchedTermsForPost`: a non-empty `matchedTerms`
array with falsy entries dropped, else the single truthy `matchedTerm`,
else nothing. -/
def getMatchedTermsForPost (p : Post) : List String :=
  match p.matchedTerms with
  | some ts =>
    if 0 < ts.length then ts.filter (fun t => ¬ t = "")
    else if ¬ p.matchedTerm = "" then [p.matchedTerm] else []
  | none => if ¬ p.matchedTerm = "" then [p.matchedTerm] else []

/-- One `add` step of `mergeMatchedTerms`: skip falsy terms and terms
whose lower-cased form was already seen; the state pairs the `seen` set
with the accumulated `merged` list. -/
def mergeAdd (st : List String × List String) (t : String) : List String × List String :=
  if t = "" then st
  else if jsToLower t ∈ st.1 then st
  else (st.1 ++ [jsToLower t], st.2 ++ [t])

/-- `search.mjs` `mergeMatchedTerms`: case-insensitive, order-preserving
union of the two term lists. -/
def mergeMatchedTerms (existingTerms incomingTerms : List String) : List String :=
  ((existingTerms ++ incomingTerms).foldl mergeAdd ([], [])).2

/-- One iteration of the `ingestPosts` loop: skip posts without a truthy
`uri`; insert a normalised copy of a new post; for a known `uri`, copy
the incoming post's fields over the stored one (`Object.assign`) and
re-merge the term annotations. -/
def ingestOne (s : Store) (post : Post) : Store :=
  if post.uri = "" then s
  else
    match storeGet s post.uri with
    | none =>
      storeSet s post.uri
        { post with matchedTerms := some (getMatchedTermsForPost post),
                    matchedTerm := (getMatchedTermsForPost post).headD "" }
    | some existing =>
      storeSet s post.uri
        { post with
            matchedTerms := some (mergeMatchedTerms (getMatchedTermsForPost existing)
              (getMatchedTermsForPost post)),
            matchedTerm := (mergeMatchedTerms (getMatchedTermsForPost existing)
              (getMatchedTermsForPost post)).headD "" }

/-- `search.mjs` `ingestPosts`. -/
def ingestPosts (s : Store) (posts : List Post) : Store := posts.foldl ingestOne s

/-- `search.mjs` `recomputeDerivedPosts`: derive the visible list from
the store through the date filter, the likes filter and the sort. -/
def recomputeDerivedPosts (now : Int) (hours : Option Int) (minLikes : Int)
    (sortMode : String) (store : Store) : List Post :=
  sortPosts (filterByLikes (filterByDate now (storeValues store) hours) minLikes) sortMode

/-- `search.mjs` `pruneIngestedPostsByCurrentFilters`: rebuild the store
keeping only entries passing the current time window and likes
threshold, returning the rebuilt store and the retained posts. -/
def pruneIngestedPostsByCurrentFilters (now : Int) (hours : Option Int) (minLikes : Int)
    (store : Store) : Store × List Post :=
  let pruned : Store :=
    List.filter (fun e =>
      decide (now - normalizeHours hours * 3600000 ≤ getPostTimestamp e.2) &&
      decide ((if 0 < minLikes then minLikes else 0) ≤ likeVal e.2)) store
  (pruned, storeValues pruned)

/-- The result of one auto-refresh cycle (`refreshSearch`): the pruned
store, the re-derived visible list, the new pending list, and the
identifiers marked as newly surfaced. -/
structure RefreshOutcome where
  store : Store
  allPosts : List Post
  pending : List Post
  newUris : List String
deriving DecidableEq

/-- The re-filtering of the pending list at the top of `refreshSearch`:
`filterByDate` then `filterByLikes` against the current thresholds. -/
def refreshFilteredPending (now : Int) (hours : Option Int) (minLikes : Int)
    (pending : List Post) : List Post :=
  filterByLikes (filterByDate now pending hours) minLikes

/-- `refreshSearch`'s `latestPosts`: the flattened per-term latest-page
fetches, deduplicated and passed through the current filters. -/
def refreshLatestPosts (now : Int) (hours : Option Int) (minLikes : Int)
    (fetched : List (List Post)) : List Post :=
  filterByLikes (filterByDate now (deduplicatePosts fetched.flatten) hours) minLikes

/-- `refreshSearch`'s `newPosts`: the filter-passing fetched posts whose
identifier is in neither the (pruned) store nor the (re-filtered)
pending list. -/
def refreshNewPosts (now : Int) (hours : Option Int) (minLikes : Int)
    (store1 : Store) (pending1 : List Post) (fetched : List (List Post)) : List Post :=
  (refreshLatestPosts now hours minLikes fetched).filter
    (fun p => ¬ p.uri ∈ (storeUris store1 ++ urisOf pending1))

/-- `search.mjs` `refreshSearch`, with the per-term latest-page fetch
results passed in (`fetched` is one tagged post list per search term):
prune the store by the current filters, re-filter the pending list,
deduplicate and filter the freshly fetched posts, and stage those with
genuinely new identifiers into the pending list. -/
def refreshSearch (now : Int) (hours : Option Int) (minLikes : Int) (sortMode : String)
    (store : Store) (pending : List Post) (fetched : List (List Post)) : RefreshOutcome :=
  let prunedPair := pruneIngestedPostsByCurrentFilters now hours minLikes store
  let pending1 := refreshFilteredPending now hours minLikes pending
  let newPosts := refreshNewPosts now hours minLikes prunedPair.1 pending1 fetched
  { store := prunedPair.1,
    allPosts := sortPosts prunedPair.2 sortMode,
    pending := if newPosts.isEmpty then pending1 else deduplicatePosts (pending1 ++ newPosts),
    newUris := urisOf newPosts }

/-- `search.mjs` `mergePendingPosts`: fold the pending posts into the
store, re-derive the visible list, and clear the pending list (a no-op
when nothing is pending). -/
def mergePendingPosts (now : Int) (hours : Option Int) (minLikes : Int) (sortMode : String)
    (store : Store) (allPosts pending : List Post) : Store × List Post × List Post :=
  if pending.isEmpty then (store, allPosts, pending)
  else
    let merged := ingestPosts store pending
    (merged, recomputeDerivedPosts now hours minLikes sortMode merged, [])

/-! ## Bounded caches (`cache.mjs`, `api/search.js`) -/

/-- A JavaScript `Map` used as a cache: an insertion-ordered association
list (the stored values carry their own timestamps; eviction never looks
at them). -/
def cacheSet {κ ν : Type} [DecidableEq κ] (c : List (κ × ν)) (k : κ) (v : ν) : List (κ × ν) :=
  if List.any c (fun e => e.1 = k) then
    List.map (fun e => if e.1 = k then (k, v) else e) c
  else c ++ [(k, v)]

/-- The `while (cache.size > MAX) delete(oldestKey)` eviction loop shared
by `enforceSearchCacheLimit` and `enforceDidCacheLimit`: repeatedly drop
the oldest-inserted entry until within bound. -/
def enforceLimit {κ ν : Type} (maxSize : Nat) : List (κ × ν) → List (κ × ν)
  | [] => []
  | e :: rest =>
    if maxSize < (e :: rest).length then enforceLimit maxSize rest
    else e :: rest

/-- `MAX_SEARCH_CACHE_SIZE` (`api/search.js`). -/
def MAX_SEARCH_CACHE_SIZE : Nat := 500

/-- `enforceSearchCacheLimit` over an explicit cache value. -/
def enforceSearchCacheLimit {κ ν : Type} (c : List (κ × ν)) : List (κ × ν) :=
  enforceLimit MAX_SEARCH_CACHE_SIZE c

/-! ## Cursor pagination (`search.mjs` `fetchAllPostsForTerm`, `loadMore`) -/

/-- One page of the proxy's search response. -/
structure SearchPage where
  posts : List Post
  cursor : Option String
deriving DecidableEq

/-- JavaScript truthiness of a cursor value (`!data.cursor`,
`state.currentCursors[term]`): present and non-empty. -/
def cursorTruthy : Option String → Bool
  | none => false
  | some c => ¬ c = ""

/-- `{...post, matchedTerm: term}` applied to a page of posts. -/
def tagWithTerm (term : String) (posts : List Post) : List Post :=
  posts.map (fun p => { p with matchedTerm := term })

/-- The `while (pages < maxPages)` loop of `fetchAllPostsForTerm`:
`server` maps a request cursor to the page the (cached) fetch resolves
with; returns the accumulated tagged posts and the final value of the
`cursor` variable, which the code records in `state.currentCursors`. -/
def fetchAllLoop (server : Option String → SearchPage) (term : String) :
    Nat → Option String → List Post → List Post × Option String
  | 0, cursor, acc => (acc, cursor)
  | fuel + 1, cursor, acc =>
    let data := server cursor
    let acc1 := acc ++ tagWithTerm term data.posts
    if cursorTruthy data.cursor then fetchAllLoop server term fuel data.cursor acc1
    else (acc1, cursor)

/-- `search.mjs` `fetchAllPostsForTerm`: paginate from a null cursor for
at most `maxPages` pages. -/
def fetchAllPostsForTerm (server : Option String → SearchPage) (term : String)
    (maxPages : Nat) : List Post × Option String :=
  fetchAllLoop server term maxPages none []

/-- `state.currentCursors[term]` over the cursor map (an absent entry is
`undefined`, modelled as `none`). -/
def lookupCursor (cursors : List (String × Option String)) (t : String) : Option String :=
  ((List.find? (fun e => e.1 = t) cursors).map (fun e => e.2)).getD none

/-- The term filter at the top of `loadMore`:
`state.searchTerms.filter((term) => state.currentCursors[term])`. -/
def loadMoreTerms (cursors : List (String × Option String)) (terms : List String) :
    List String :=
  terms.filter (fun t => cursorTruthy (lookupCursor cursors t))

/-- The posts `loadMore` fetches and tags: one single-page fetch per
term that still has a truthy stored cursor, flattened. -/
def loadMoreFetch (server : String → Option String → SearchPage)
    (cursors : List (String × Option String)) (terms : List String) : List Post :=
  ((loadMoreTerms cursors terms).map (fun t =>
    tagWithTerm t (server t (lookupCursor cursors t)).posts)).flatten

/-! ## Search generations (`performSearch`, `state.mjs`) -/

/-- The orchestrator state the generation discipline protects: the
global generation counter, the ingest store, and the derived visible
list. -/
structure OrchestratorState where
  searchGeneration : Nat
  ingested : Store
  allPosts : List Post
deriving DecidableEq

/-- `state.mjs` `isCurrentSearchGeneration`. -/
def isCurrentSearchGeneration (s : OrchestratorState) (generation : Nat) : Bool :=
  s.searchGeneration = generation

/-- The fixed search parameters of one run. -/
structure SearchParams where
  now : Int
  hours : Option Int
  minLikes : Int
  sortMode : String

/-- The suspension-resume points of `performSearch` relevant to the
generation token: a new search starting (increment the counter and reset
the accumulated state), a per-term fetch resolving carrying the
generation its run captured, and the final derive of a run. -/
inductive SearchEvent where
  | startSearch : SearchEvent
  | termResolve : Nat → List Post → SearchEvent
  | finalize : Nat → SearchEvent

/-- One step of the orchestrator: a resolving fetch or a final derive is
committed only when its captured generation is still current, exactly
the `if (!isCurrentSearchGeneration(currentGeneration)) return` guards
of `performSearch`. -/
def stepSearch (P : SearchParams) (s : OrchestratorState) : SearchEvent → OrchestratorState
  | SearchEvent.startSearch =>
    { searchGeneration := s.searchGeneration + 1, ingested := [], allPosts := [] }
  | SearchEvent.termResolve g posts =>
    if isCurrentSearchGeneration s g then { s with ingested := ingestPosts s.ingested posts }
    else s
  | SearchEvent.finalize g =>
    if isCurrentSearchGeneration s g then
      { s with allPosts := recomputeDerivedPosts P.now P.hours P.minLikes P.sortMode s.ingested }
    else s

/-- A whole interleaving of suspension-resume points. -/
def runSearchEvents (P : SearchParams) (s : OrchestratorState)
    (events : List SearchEvent) : OrchestratorState :=
  events.foldl (stepSearch P) s

/-! ## Settlement classification (`performSearch` after `allSettled`) -/

/-- The settled outcome of one term's fetch pipeline: the posts it
ingested, or the error message it rejected with. -/
abbrev TermResult : Type := Except String (List Post)

instance : DecidableEq TermResult := fun a b =>
  match a, b with
  | Except.ok x, Except.ok y =>
    if h : x = y then Decidable.isTrue (by rw [h])
    else Decidable.isFalse (fun hc => h (by injection hc))
  | Except.error x, Except.error y =>
    if h : x = y then Decidable.isTrue (by rw [h])
    else Decidable.isFalse (fun hc => h (by injection hc))
  | Except.ok _, Except.error _ => Decidable.isFalse (fun hc => by injection hc)
  | Except.error _, Except.ok _ => Decidable.isFalse (fun hc => by injection hc)

/-- `results.filter((r) => r.status === 'rejected')`. -/
def searchFailures (results : List TermResult) : List TermResult :=
  results.filter (fun r => match r with | Except.error _ => true | Except.ok _ => false)

/-- `failures[0].reason.message`. -/
def firstFailureMessage (results : List TermResult) : String :=
  match searchFailures results with
  | Except.error m :: _ => m
  | _ => ""

/-- The status classification of `performSearch` once every term fetch
has settled for a still-current generation: `some msg` models
`showStatus(msg, 'error')`, `none` models `hideStatus()`. -/
def searchOutcomeStatus (results : List TermResult) : Option String :=
  let failures := searchFailures results
  if 0 < failures.length then
    if failures.length = results.length then
      some ("Search failed: " ++ firstFailureMessage results)
    else some (toString failures.length ++ "/" ++ toString results.length
      ++ " terms failed to load")
  else none

/-- The posts of the successful term fetches, in settlement order (the
per-term `ingestPosts` calls of the still-current run fold exactly these
into the store). -/
def ingestSettledResults (store : Store) (results : List TermResult) : Store :=
  results.foldl (fun st r => match r with
    | Except.ok posts => ingestPosts st posts
    | Except.error _ => st) store

/-! ## General lemmas on first-occurrence deduplication -/

theorem mem_addFirst {α : Type} [DecidableEq α] (acc : List α) (x y : α) :
    y ∈ addFirst acc x ↔ y ∈ acc ∨ y = x := by
  unfold addFirst
  by_cases h : x ∈ acc
  · simp only [if_pos h]
    constructor
    · exact Or.inl
    · rintro (hy | rfl)
      · exact hy
      · exact h
  · simp [if_neg h]

theorem addFirst_of_mem {α : Type} [DecidableEq α] {acc : List α} {x : α} (h : x ∈ acc) :
    addFirst acc x = acc := by
  simp [addFirst, if_pos h]

theorem addFirst_of_not_mem {α : Type} [DecidableEq α] {acc : List α} {x : α} (h : ¬ x ∈ acc) :
    addFirst acc x = acc ++ [x] := by
  simp [addFirst, if_neg h]

theorem nodup_addFirst {α : Type} [DecidableEq α] {acc : List α} (x : α) (h : acc.Nodup) :
    (addFirst acc x).Nodup := by
  by_cases hx : x ∈ acc
  · rw [addFirst_of_mem hx]; exact h
  · rw [addFirst_of_not_mem hx]
    simp only [List.nodup_append, List.nodup_cons, List.nodup_nil]
    refine ⟨h, by simp, ?_⟩
    intro a ha hax
    rw [List.mem_singleton] at hax
    exact hx (hax ▸ ha)

theorem length_addFirst_le {α : Type} [DecidableEq α] (acc : List α) (x : α) :
    (addFirst acc x).length ≤ acc.length + 1 := by
  by_cases hx : x ∈ acc
  · rw [addFirst_of_mem hx]; omega
  · rw [addFirst_of_not_mem hx]; simp

theorem dedupKeepFirst_concat {α : Type} [DecidableEq α] (l : List α) (x : α) :
    dedupKeepFirst (l ++ [x]) = addFirst (dedupKeepFirst l) x := by
  unfold dedupKeepFirst
  rw [List.foldl_append]
  rfl

theorem mem_dedupKeepFirst {α : Type} [DecidableEq α] (l : List α) (x : α) :
    x ∈ dedupKeepFirst l ↔ x ∈ l := by
  induction l using List.reverseRecOn with
  | nil => simp [dedupKeepFirst]
  | append_singleton l a ih =>
    rw [dedupKeepFirst_concat]
    simp [mem_addFirst, ih]

theorem nodup_dedupKeepFirst {α : Type} [DecidableEq α] (l : List α) :
    (dedupKeepFirst l).Nodup := by
  induction l using List.reverseRecOn with
  | nil => simp [dedupKeepFirst]
  | append_singleton l a ih =>
    rw [dedupKeepFirst_concat]
    exact nodup_addFirst a ih

theorem length_dedupKeepFirst_le {α : Type} [DecidableEq α] (l : List α) :
    (dedupKeepFirst l).length ≤ l.length := by
  induction l using List.reverseRecOn with
  | nil => simp [dedupKeepFirst]
  | append_singleton l a ih =>
    rw [dedupKeepFirst_concat]
    calc (addFirst (dedupKeepFirst l) a).length ≤ (dedupKeepFirst l).length + 1 :=
          length_addFirst_le _ _
      _ ≤ l.length + 1 := by omega
      _ = (l ++ [a]).length := by simp

/-! ## Structure of `deduplicatePosts` -/

/-- The effective term list of an entry of the `seen` map:
`matchedTerms` defaulted to `[matchedTerm]`. -/
def effTerms (q : Post) : List String := q.matchedTerms.getD [q.matchedTerm]

theorem mergeTag_uri (q : Post) (t : String) : (mergeTag q t).uri = q.uri := rfl

theorem effTerms_mergeTag (q : Post) (t : String) :
    effTerms (mergeTag q t) = addFirst (effTerms q) t := rfl

theorem any_uri_iff (acc : List Post) (u : String) :
    (acc.any (fun q => q.uri = u)) = true ↔ u ∈ urisOf acc := by
  simp [List.any_eq_true, urisOf, List.mem_map]

theorem urisOf_dedupStep (acc : List Post) (p : Post) :
    urisOf (dedupStep acc p) = addFirst (urisOf acc) p.uri := by
  unfold dedupStep
  by_cases h : p.uri ∈ urisOf acc
  · rw [if_pos ((any_uri_iff acc p.uri).mpr h), addFirst_of_mem h]
    unfold urisOf
    rw [List.map_map]
    apply List.map_congr_left
    intro q _
    simp only [Function.comp_apply]
    by_cases hq : q.uri = p.uri
    · rw [if_pos hq, mergeTag_uri, hq]
    · rw [if_neg hq]
  · rw [if_neg (fun hc => h ((any_uri_iff acc p.uri).mp hc)), addFirst_of_not_mem h]
    simp [urisOf]

theorem urisOf_foldl_dedupStep (posts : List Post) (acc : List Post) :
    urisOf (posts.foldl dedupStep acc) = (posts.map (fun p => p.uri)).foldl addFirst (urisOf acc) := by
  induction posts generalizing acc with
  | nil => rfl
  | cons p rest ih =>
    simp only [List.foldl_cons, List.map_cons]
    rw [ih, urisOf_dedupStep]

theorem urisOf_deduplicatePosts (posts : List Post) :
    urisOf (deduplicatePosts posts) = dedupKeepFirst (urisOf posts) := by
  unfold deduplicatePosts
  have h1 : urisOf ((posts.foldl dedupStep []).map
      (fun q => { q with matchedTerms := some (q.matchedTerms.getD [q.matchedTerm]) })) =
      urisOf (posts.foldl dedupStep []) := by
    unfold urisOf
    rw [List.map_map]
    rfl
  rw [h1, urisOf_foldl_dedupStep]
  rfl

theorem nodup_urisOf_deduplicatePosts (posts : List Post) :
    (urisOf (deduplicatePosts posts)).Nodup := by
  rw [urisOf_deduplicatePosts]
  exact nodup_dedupKeepFirst _

theorem mem_urisOf_deduplicatePosts (posts : List Post) (u : String) :
    u ∈ urisOf (deduplicatePosts posts) ↔ u ∈ urisOf posts := by
  rw [urisOf_deduplicatePosts]
  exact mem_dedupKeepFirst _ _

theorem length_deduplicatePosts_le (posts : List Post) :
    (deduplicatePosts posts).length ≤ posts.length := by
  have h1 : (deduplicatePosts posts).length = (urisOf (deduplicatePosts posts)).length := by
    simp [urisOf]
  have h2 : posts.length = (urisOf posts).length := by simp [urisOf]
  rw [h1, h2, urisOf_deduplicatePosts]
  exact length_dedupKeepFirst_le _

theorem tagsFor_append_singleton (u : String) (l : List Post) (p : Post) :
    tagsFor u (l ++ [p]) = tagsFor u l ++ (if p.uri = u then [p.matchedTerm] else []) := by
  unfold tagsFor
  rw [List.filter_append, List.map_append]
  by_cases h : p.uri = u <;> simp [h]

theorem tagsFor_eq_nil_of_not_mem {u : String} {l : List Post} (h : ¬ u ∈ urisOf l) :
    tagsFor u l = [] := by
  unfold tagsFor
  have : l.filter (fun p => decide (p.uri = u)) = [] := by
    rw [List.filter_eq_nil_iff]
    intro p hp hc
    rw [decide_eq_true_eq] at hc
    exact h (hc ▸ List.mem_map_of_mem (fun p => p.uri) hp)
  rw [this]
  rfl

theorem dedup_fold_effTerms :
    ∀ (posts processed acc : List Post),
      (∀ p ∈ posts, p.matchedTerms = none) →
      urisOf acc = dedupKeepFirst (urisOf processed) →
      (∀ q ∈ acc, effTerms q = dedupKeepFirst (tagsFor q.uri processed)) →
      ∀ q ∈ posts.foldl dedupStep acc,
        effTerms q = dedupKeepFirst (tagsFor q.uri (processed ++ posts)) := by
  intro posts
  induction posts with
  | nil =>
    intro processed acc _ _ hTerms q hq
    simpa using hTerms q (by simpa using hq)
  | cons p rest ih =>
    intro processed acc hNone hUris hTerms q hq
    have hrw : processed ++ p :: rest = (processed ++ [p]) ++ rest := by simp
    rw [hrw]
    refine ih (processed ++ [p]) (dedupStep acc p)
      (fun x hx => hNone x (List.mem_cons_of_mem p hx)) ?_ ?_ q (by simpa using hq)
    · rw [urisOf_dedupStep, hUris]
      have : urisOf (processed ++ [p]) = urisOf processed ++ [p.uri] := by simp [urisOf]
      rw [this, dedupKeepFirst_concat]
    · intro q' hq'
      unfold dedupStep at hq'
      by_cases hmem : p.uri ∈ urisOf acc
      · rw [if_pos ((any_uri_iff acc p.uri).mpr hmem)] at hq'
        obtain ⟨q0, hq0, rfl⟩ := List.mem_map.mp hq'
        by_cases heq : q0.uri = p.uri
        · rw [if_pos heq, effTerms_mergeTag, mergeTag_uri,
            tagsFor_append_singleton, hTerms q0 hq0]
          rw [if_pos heq.symm, dedupKeepFirst_concat]
        · rw [if_neg heq, tagsFor_append_singleton,
            if_neg (fun hc => heq hc.symm), List.append_nil]
          exact hTerms q0 hq0
      · rw [if_neg (fun hc => hmem ((any_uri_iff acc p.uri).mp hc))] at hq'
        rcases List.mem_append.mp hq' with hin | hp
        · have hne : ¬ p.uri = q'.uri := by
            intro hc
            exact hmem (hc ▸ List.mem_map_of_mem (fun x => x.uri) hin)
          rw [tagsFor_append_singleton, if_neg hne, List.append_nil]
          exact hTerms q' hin
        · rw [List.mem_singleton] at hp
          subst hp
          have hnotproc : ¬ q'.uri ∈ urisOf processed := by
            intro hc
            exact hmem (hUris ▸ (mem_dedupKeepFirst _ _).mpr hc)
          rw [tagsFor_append_singleton, if_pos rfl, tagsFor_eq_nil_of_not_mem hnotproc,
            List.nil_append]
          have : effTerms q' = [q'.matchedTerm] := by
            unfold effTerms
            rw [hNone q' (List.mem_cons_self _ _)]
            rfl
          rw [this]
          simp [dedupKeepFirst, addFirst]

theorem effTerms_deduplicatePosts {posts : List Post}
    (hNone : ∀ p ∈ posts, p.matchedTerms = none) :
    ∀ q ∈ deduplicatePosts posts,
      q.matchedTerms = some (dedupKeepFirst (tagsFor q.uri posts)) := by
  intro q hq
  unfold deduplicatePosts at hq
  obtain ⟨q0, hq0, rfl⟩ := List.mem_map.mp hq
  have h := dedup_fold_effTerms posts [] [] hNone (by simp [urisOf, dedupKeepFirst])
    (by intro x hx; cases hx) q0 hq0
  rw [List.nil_append] at h
  exact congrArg some h

theorem foldl_dedupStep_of_nodup :
    ∀ (l acc : List Post), (urisOf acc ++ urisOf l).Nodup → l.foldl dedupStep acc = acc ++ l := by
  intro l
  induction l with
  | nil => intro acc _; simp
  | cons p rest ih =>
    intro acc h
    have hmem : ¬ p.uri ∈ urisOf acc := by
      have hd := (List.nodup_append.mp h).2.2
      intro hc
      exact hd hc (by simp [urisOf])
    have hstep : dedupStep acc p = acc ++ [p] := by
      unfold dedupStep
      rw [if_neg (fun hc => hmem ((any_uri_iff acc p.uri).mp hc))]
    rw [List.foldl_cons, hstep, ih (acc ++ [p]) ?_]
    · simp
    · have : urisOf (acc ++ [p]) ++ urisOf rest = urisOf acc ++ urisOf (p :: rest) := by
        simp [urisOf]
      rw [this]
      exact h

theorem deduplicatePosts_of_processed {l : List Post}
    (hnd : (urisOf l).Nodup) (hsome : ∀ q ∈ l, ∃ ts, q.matchedTerms = some ts) :
    deduplicatePosts l = l := by
  unfold deduplicatePosts
  rw [foldl_dedupStep_of_nodup l [] (by simpa [urisOf] using hnd), List.nil_append]
  have hid : ∀ q ∈ l,
      ({ q with matchedTerms := some (q.matchedTerms.getD [q.matchedTerm]) } : Post) = q := by
    intro q hq
    obtain ⟨ts, hts⟩ := hsome q hq
    cases q
    simp_all
  calc l.map (fun q => { q with matchedTerms := some (q.matchedTerms.getD [q.matchedTerm]) })
      = l.map id := List.map_congr_left hid
    _ = l := List.map_id l

theorem matchedTerms_some_deduplicatePosts (posts : List Post) :
    ∀ q ∈ deduplicatePosts posts, ∃ ts, q.matchedTerms = some ts := by
  intro q hq
  unfold deduplicatePosts at hq
  obtain ⟨q0, _, rfl⟩ := List.mem_map.mp hq
  exact ⟨_, rfl⟩

/-! ## Sorting lemmas -/

theorem sortPosts_perm (l : List Post) (m : String) : (sortPosts l m).Perm l := by
  unfold sortPosts
  split
  · exact List.perm_insertionSort _ _
  · exact List.perm_insertionSort _ _

theorem mem_sortPosts {p : Post} {l : List Post} {m : String} :
    p ∈ sortPosts l m ↔ p ∈ l :=
  (sortPosts_perm l m).mem_iff

theorem sortPosts_idem (l : List Post) (m : String) :
    sortPosts (sortPosts l m) m = sortPosts l m := by
  unfold sortPosts
  by_cases h : m = "latest"
  · simp only [if_pos h]
    exact List.Sorted.insertionSort_eq (List.sorted_insertionSort tsGE l)
  · simp only [if_neg h]
    exact List.Sorted.insertionSort_eq (List.sorted_insertionSort likesGE l)

/-! ## Claim C1 — `deduplicatePosts` -/

/-- A tagged input batch as `fetchAllPostsForTerm` produces it: posts
whose `matchedTerms` field is still unset. -/
def c1SamplePosts : List Post :=
  [{ uri := "at://1", matchedTerm := "t1" }, { uri := "at://2", matchedTerm := "t2" },
   { uri := "at://1", matchedTerm := "t3" }, { uri := "at://1", matchedTerm := "t1" }]

/-- Claim C1, counterexample: the claim says the canonical post's
`matchedTerms` is the case-insensitively deduplicated union of the term
tags, but `deduplicatePosts` merges tags with the case-sensitive
`Array.prototype.includes`, so tags `"React"` and `"react"` on the same
identifier both survive, while the claim's case-insensitive union keeps
only the first. -/
theorem deduplicatePosts_ci_union_counterexample :
    deduplicatePosts
        [{ uri := "at://x", matchedTerm := "React" },
         { uri := "at://x", matchedTerm := "react" }] =
      [{ uri := "at://x", matchedTerm := "React", matchedTerms := some ["React", "react"] }] ∧
    ciDedupFirstOccurrence ["React", "react"] = ["React"] ∧
    ¬ (["React", "react"] : List String) = ["React"] := by decide

/-- Claim C1 (amended): for every list of tagged posts (posts whose
`matchedTerms` annotation is still unset), `deduplicatePosts` returns a
list whose identifiers are unique and appear in first-seen order, whose
length is at most the input's, and in which the canonical post of an
identifier carries as `matchedTerms` the `case-sensitively` deduplicated
union of that identifier's term tags, in first-occurrence order. -/
theorem deduplicatePosts_unique_ordered_csUnion (posts : List Post)
    (hNone : ∀ p ∈ posts, p.matchedTerms = none) :
    (urisOf (deduplicatePosts posts)).Nodup ∧
    urisOf (deduplicatePosts posts) = dedupKeepFirst (urisOf posts) ∧
    (deduplicatePosts posts).length ≤ posts.length ∧
    ∀ q ∈ deduplicatePosts posts,
      q.matchedTerms = some (dedupKeepFirst (tagsFor q.uri posts)) :=
  ⟨nodup_urisOf_deduplicatePosts posts, urisOf_deduplicatePosts posts,
   length_deduplicatePosts_le posts, effTerms_deduplicatePosts hNone⟩

/-- Witness for C1 at a concrete tagged batch. -/
theorem deduplicatePosts_unique_ordered_csUnion_witness :
    (urisOf (deduplicatePosts c1SamplePosts)).Nodup ∧
    urisOf (deduplicatePosts c1SamplePosts) = dedupKeepFirst (urisOf c1SamplePosts) ∧
    (deduplicatePosts c1SamplePosts).length ≤ c1SamplePosts.length ∧
    ∀ q ∈ deduplicatePosts c1SamplePosts,
      q.matchedTerms = some (dedupKeepFirst (tagsFor q.uri c1SamplePosts)) :=
  deduplicatePosts_unique_ordered_csUnion c1SamplePosts (by decide)

/-! ## Claim C5 — `filterByDate` -/

/-- The claim's reading of `filterByDate`, stated from the spec's words:
keep exactly the posts whose derived timestamp lies in the closed
interval from `now - hours*3600s` to `now`. -/
def filterByDateClaim (now : Int) (posts : List Post) (hours : Option Int) : List Post :=
  posts.filter (fun p =>
    decide (now - normalizeHours hours * 3600000 ≤ getPostTimestamp p) &&
    decide (getPostTimestamp p ≤ now))

/-- A post dated in the future of `now = 0`. -/
def futurePost : Post := { uri := "at://future", createdAt := DateVal.time 5 }

/-- Claim C5, counterexample: `filterByDate` enforces only the lower
cutoff `ts >= now - hours*3600000` and no upper bound, so a post whose
derived timestamp lies after `now` is kept, while the claim's closed
interval `[now - hours*3600s, now]` excludes it. -/
theorem filterByDate_window_counterexample :
    filterByDate 0 [futurePost] (some 1) = [futurePost] ∧
    filterByDateClaim 0 [futurePost] (some 1) = [] ∧
    ¬ filterByDate 0 [futurePost] (some 1) = filterByDateClaim 0 [futurePost] (some 1) := by
  decide

/-- Claim C5 (amended): `filterByDate` keeps exactly the posts whose
derived timestamp (record creation time, falling back to indexing time,
unparseable resolving to epoch 0) is at least `now - hours*3600s`, with
no upper bound, substituting 24 for `hours` when it is not a positive
finite number. -/
theorem filterByDate_lower_bound_spec (now : Int) (posts : List Post) (hours : Option Int)
    (p : Post) :
    (p ∈ filterByDate now posts hours ↔
      p ∈ posts ∧ now - normalizeHours hours * 3600000 ≤ getPostTimestamp p) ∧
    (∀ hneg : Int, hneg ≤ 0 →
      filterByDate now posts (some hneg) = filterByDate now posts (some 24)) ∧
    filterByDate now posts none = filterByDate now posts (some 24) := by
  refine ⟨?_, ?_, ?_⟩
  · unfold filterByDate
    rw [List.mem_filter, decide_eq_true_eq]
  · intro hneg hle
    unfold filterByDate
    have h1 : normalizeHours (some hneg) = normalizeHours (some 24) := by
      simp only [normalizeHours]
      rw [if_neg (by omega), if_pos (by omega)]
    rw [h1]
  · unfold filterByDate
    have h2 : normalizeHours (none : Option Int) = normalizeHours (some 24) := by
      simp only [normalizeHours]
      rw [if_pos (by omega)]
    rw [h2]

/-- Witness for C5 at a concrete input, discharging the nested
nonpositive-hours hypothesis at `-3`. -/
theorem filterByDate_lower_bound_spec_witness :
    (futurePost ∈ filterByDate 0 [futurePost] (some 5) ↔
      futurePost ∈ [futurePost] ∧
        (0:Int) - normalizeHours (some 5) * 3600000 ≤ getPostTimestamp futurePost) ∧
    filterByDate 0 [futurePost] (some (-3)) = filterByDate 0 [futurePost] (some 24) :=
  ⟨(filterByDate_lower_bound_spec 0 [futurePost] (some 5) futurePost).1,
   (filterByDate_lower_bound_spec 0 [futurePost] (some 5) futurePost).2.1 (-3) (by omega)⟩

/-! ## Claim C4 — pipeline idempotence -/

/-- The canonical pipeline composition of §4.4:
dedup → filter-by-date → filter-by-likes → sort. -/
def searchPipeline (now : Int) (hours : Option Int) (minLikes : Int) (sortMode : String)
    (posts : List Post) : List Post :=
  sortPosts (filterByLikes (filterByDate now (deduplicatePosts posts) hours) minLikes) sortMode

/-- Claim C4: for every post list and fixed parameters (time window,
minimum likes, sort mode and a fixed `now`), the composed pipeline
dedup → filter-by-date → filter-by-likes → sort is idempotent. -/
theorem searchPipeline_idempotent (now : Int) (hours : Option Int) (minLikes : Int)
    (sortMode : String) (posts : List Post) :
    searchPipeline now hours minLikes sortMode
        (searchPipeline now hours minLikes sortMode posts) =
      searchPipeline now hours minLikes sortMode posts := by
  have hmem_fl : ∀ q ∈ searchPipeline now hours minLikes sortMode posts,
      q ∈ filterByLikes (filterByDate now (deduplicatePosts posts) hours) minLikes := by
    intro q hq
    unfold searchPipeline at hq
    exact mem_sortPosts.mp hq
  have hmem_fd : ∀ q ∈ searchPipeline now hours minLikes sortMode posts,
      q ∈ filterByDate now (deduplicatePosts posts) hours := by
    intro q hq
    have h1 := hmem_fl q hq
    unfold filterByLikes at h1
    exact (List.mem_filter.mp h1).1
  have hmem_dedup : ∀ q ∈ searchPipeline now hours minLikes sortMode posts,
      q ∈ deduplicatePosts posts := by
    intro q hq
    have h1 := hmem_fd q hq
    unfold filterByDate at h1
    exact (List.mem_filter.mp h1).1
  have hdedup : deduplicatePosts (searchPipeline now hours minLikes sortMode posts) =
      searchPipeline now hours minLikes sortMode posts := by
    apply deduplicatePosts_of_processed
    · have hsub : (filterByLikes (filterByDate now (deduplicatePosts posts) hours)
          minLikes).Sublist (deduplicatePosts posts) := by
        unfold filterByLikes filterByDate
        exact (List.filter_sublist _).trans (List.filter_sublist _)
      have h2 := nodup_urisOf_deduplicatePosts posts
      unfold urisOf at h2
      have hnd : (List.map (fun p => p.uri)
          (filterByLikes (filterByDate now (deduplicatePosts posts) hours) minLikes)).Nodup :=
        (hsub.map (fun p => p.uri)).nodup h2
      unfold searchPipeline urisOf
      exact (((sortPosts_perm _ _).map (fun p => p.uri)).nodup_iff).mpr hnd
    · intro q hq
      exact matchedTerms_some_deduplicatePosts posts q (hmem_dedup q hq)
  have hfd : filterByDate now (searchPipeline now hours minLikes sortMode posts) hours =
      searchPipeline now hours minLikes sortMode posts := by
    unfold filterByDate
    rw [List.filter_eq_self]
    intro q hq
    have h1 := hmem_fd q hq
    unfold filterByDate at h1
    exact (List.mem_filter.mp h1).2
  have hfl : filterByLikes (searchPipeline now hours minLikes sortMode posts) minLikes =
      searchPipeline now hours minLikes sortMode posts := by
    unfold filterByLikes
    rw [List.filter_eq_self]
    intro q hq
    have h1 := hmem_fl q hq
    unfold filterByLikes at h1
    exact (List.mem_filter.mp h1).2
  conv_lhs => rw [searchPipeline, hdedup, hfd, hfl]
  conv_lhs => rw [searchPipeline]
  exact sortPosts_idem _ _

/-! ## Claim C2 — stale generations are discarded -/

/-- Claim C2: for every run capturing generation `g`, if the global
search generation has been incremented past `g` by the time a per-term
fetch for that run resolves, the resolved posts are never ingested and
never appear in the final result set: the whole run is equal to the run
with the stale resolution removed. -/
theorem staleGenerationResolveDiscarded (P : SearchParams) (s0 : OrchestratorState)
    (pre post : List SearchEvent) (g : Nat) (ps : List Post)
    (h : g < (runSearchEvents P s0 pre).searchGeneration) :
    runSearchEvents P s0 (pre ++ SearchEvent.termResolve g ps :: post) =
      runSearchEvents P s0 (pre ++ post) := by
  have hne : isCurrentSearchGeneration (runSearchEvents P s0 pre) g = false := by
    unfold isCurrentSearchGeneration
    simp only [decide_eq_false_iff_not]
    omega
  unfold runSearchEvents at hne ⊢
  rw [List.foldl_append, List.foldl_append, List.foldl_cons]
  have hstep : stepSearch P (pre.foldl (stepSearch P) s0) (SearchEvent.termResolve g ps) =
      pre.foldl (stepSearch P) s0 := by
    simp only [stepSearch]
    rw [hne]
    simp
  rw [hstep]

/-- Witness for C2: generation 1's fetch resolves after the counter has
reached 2; the run equals the run without that resolution. -/
theorem staleGenerationResolveDiscarded_witness :
    1 < (runSearchEvents ⟨0, none, 0, "top"⟩ ⟨0, [], []⟩
        [SearchEvent.startSearch, SearchEvent.startSearch]).searchGeneration ∧
    runSearchEvents ⟨0, none, 0, "top"⟩ ⟨0, [], []⟩
        ([SearchEvent.startSearch, SearchEvent.startSearch] ++
          SearchEvent.termResolve 1 [{ uri := "at://stale" }] :: [SearchEvent.finalize 2]) =
      runSearchEvents ⟨0, none, 0, "top"⟩ ⟨0, [], []⟩
        ([SearchEvent.startSearch, SearchEvent.startSearch] ++ [SearchEvent.finalize 2]) :=
  ⟨by decide,
   staleGenerationResolveDiscarded ⟨0, none, 0, "top"⟩ ⟨0, [], []⟩
     [SearchEvent.startSearch, SearchEvent.startSearch] [SearchEvent.finalize 2] 1
     [{ uri := "at://stale" }] (by decide)⟩

/-! ## Claim C3 — the recorded pagination cursor -/

/-- A proxy behaviour whose pagination is exhausted on the second page:
the first page returns cursor `"c1"`, the page fetched with `"c1"`
returns no cursor. -/
def twoPageServer : Option String → SearchPage := fun c =>
  match c with
  | none => { posts := [], cursor := some "c1" }
  | some _ => { posts := [], cursor := none }

/-- Claim C3, counterexample: the claim says the recorded cursor is null
whenever the last fetched page returned no cursor, on whatever page
exhaustion occurred; but when the second page is the exhausted one,
`fetchAllPostsForTerm` records the cursor it used to fetch that page
(`"c1"`), not null. -/
theorem fetchAll_cursor_counterexample :
    (fetchAllPostsForTerm twoPageServer "t" 2).2 = some "c1" ∧
    (twoPageServer (some "c1")).cursor = none ∧
    ¬ (fetchAllPostsForTerm twoPageServer "t" 2).2 = none := by decide

theorem fetchAllLoop_ne_none (server : Option String → SearchPage) (term : String) :
    ∀ (fuel : Nat) (c : Option String) (acc : List Post), ¬ c = none →
      ¬ (fetchAllLoop server term fuel c acc).2 = none := by
  intro fuel
  induction fuel with
  | zero =>
    intro c acc hc
    simpa [fetchAllLoop] using hc
  | succ n ih =>
    intro c acc hc
    unfold fetchAllLoop
    by_cases hcur : cursorTruthy (server c).cursor = true
    · rw [if_pos hcur]
      apply ih
      intro hnone
      rw [hnone] at hcur
      simp [cursorTruthy] at hcur
    · rw [if_neg hcur]
      simpa using hc

theorem mem_tagWithTerm {p : Post} {t : String} {posts : List Post}
    (h : p ∈ tagWithTerm t posts) : p.matchedTerm = t := by
  unfold tagWithTerm at h
  obtain ⟨p0, _, rfl⟩ := List.mem_map.mp h
  rfl

/-- Claim C3 (amended): the cursor `fetchAllPostsForTerm` records is
null exactly when the first fetched page carried no cursor; when
exhaustion occurs on a later page the recorded cursor is the (non-null)
cursor the last page was fetched with. At load-more time, terms whose
stored cursor is not truthy are skipped and contribute no posts. -/
theorem fetchAll_cursor_spec (server : Option String → SearchPage) (term : String)
    (maxPages : Nat) (hpos : 0 < maxPages) :
    ((fetchAllPostsForTerm server term maxPages).2 = none ↔
      cursorTruthy (server none).cursor = false) ∧
    (∀ (cursors : List (String × Option String)) (terms : List String) (t : String),
      t ∈ loadMoreTerms cursors terms ↔
        t ∈ terms ∧ cursorTruthy (lookupCursor cursors t) = true) ∧
    (∀ (server2 : String → Option String → SearchPage)
        (cursors : List (String × Option String)) (terms : List String) (p : Post),
      p ∈ loadMoreFetch server2 cursors terms →
        p.matchedTerm ∈ terms ∧ cursorTruthy (lookupCursor cursors p.matchedTerm) = true) := by
  refine ⟨?_, ?_, ?_⟩
  · obtain ⟨n, rfl⟩ : ∃ n, maxPages = n + 1 := ⟨maxPages - 1, by omega⟩
    unfold fetchAllPostsForTerm fetchAllLoop
    constructor
    · intro hnone
      by_cases hcur : cursorTruthy (server none).cursor = true
      · rw [if_pos hcur] at hnone
        exfalso
        refine fetchAllLoop_ne_none server term n (server none).cursor _ ?_ hnone
        intro hc
        rw [hc] at hcur
        simp [cursorTruthy] at hcur
      · simpa using hcur
    · intro hfalse
      rw [if_neg (by simp [hfalse])]
  · intro cursors terms t
    unfold loadMoreTerms
    rw [List.mem_filter]
  · intro server2 cursors terms p hp
    unfold loadMoreFetch at hp
    rw [List.mem_flatten] at hp
    obtain ⟨l, hl, hpl⟩ := hp
    obtain ⟨t, ht, rfl⟩ := List.mem_map.mp hl
    have hterm := mem_tagWithTerm hpl
    unfold loadMoreTerms at ht
    have := List.mem_filter.mp ht
    rw [hterm]
    exact this

/-- Witness for C3 at a server that is exhausted on the first page. -/
theorem fetchAll_cursor_spec_witness :
    ((fetchAllPostsForTerm (fun _ => { posts := [], cursor := none }) "t" 2).2 = none ↔
      cursorTruthy ((fun (_ : Option String) =>
        ({ posts := [], cursor := none } : SearchPage)) none).cursor = false) ∧
    (∀ (cursors : List (String × Option String)) (terms : List String) (t : String),
      t ∈ loadMoreTerms cursors terms ↔
        t ∈ terms ∧ cursorTruthy (lookupCursor cursors t) = true) ∧
    (∀ (server2 : String → Option String → SearchPage)
        (cursors : List (String × Option String)) (terms : List String) (p : Post),
      p ∈ loadMoreFetch server2 cursors terms →
        p.matchedTerm ∈ terms ∧ cursorTruthy (lookupCursor cursors p.matchedTerm) = true) :=
  fetchAll_cursor_spec (fun _ => { posts := [], cursor := none }) "t" 2 (by decide)

/-! ## Claim C8 — bounded cache eviction -/

theorem foldl_cacheSet_of_nodup {κ ν : Type} [DecidableEq κ] :
    ∀ (entries acc : List (κ × ν)),
      (acc.map Prod.fst ++ entries.map Prod.fst).Nodup →
      entries.foldl (fun c e => cacheSet c e.1 e.2) acc = acc ++ entries := by
  intro entries
  induction entries with
  | nil => intro acc _; simp
  | cons e rest ih =>
    intro acc h
    have hmem : ¬ e.1 ∈ acc.map Prod.fst := by
      have hd := (List.nodup_append.mp h).2.2
      intro hc
      exact hd hc (by simp)
    have hset : cacheSet acc e.1 e.2 = acc ++ [e] := by
      have hany : ¬ (List.any acc (fun x => x.1 = e.1)) = true := by
        intro hc
        rw [List.any_eq_true] at hc
        obtain ⟨x, hx, hxe⟩ := hc
        rw [decide_eq_true_eq] at hxe
        exact hmem (hxe ▸ List.mem_map_of_mem Prod.fst hx)
      unfold cacheSet
      rw [if_neg hany]
    rw [List.foldl_cons, hset, ih (acc ++ [e]) ?_]
    · simp
    · have hperm : (acc ++ [e]).map Prod.fst ++ rest.map Prod.fst =
          acc.map Prod.fst ++ (e :: rest).map Prod.fst := by simp
      rw [hperm]
      exact h

theorem enforceLimit_eq_drop {κ ν : Type} (m : Nat) :
    ∀ (c : List (κ × ν)), enforceLimit m c = c.drop (c.length - m) := by
  intro c
  induction c with
  | nil => simp [enforceLimit]
  | cons e rest ih =>
    unfold enforceLimit
    by_cases h : m < (e :: rest).length
    · rw [if_pos h, ih]
      have hlen : (e :: rest).length - m = (rest.length - m) + 1 := by
        simp only [List.length_cons] at h ⊢
        omega
      rw [hlen, List.drop_succ_cons]
    · rw [if_neg h]
      have hlen : (e :: rest).length - m = 0 := by
        simp only [List.length_cons] at h ⊢
        omega
      rw [hlen, List.drop_zero]

/-- Claim C8: inserting `MAX+5` distinct keys into an empty bounded
cache and then enforcing its limit leaves exactly `MAX` entries — the
cache equals the insertion sequence with its 5 oldest entries dropped,
the 5 oldest keys are absent, the newest `MAX` keys are present — and in
general `enforceSearchCacheLimit` drops oldest-inserted entries until
the size is within `MAX_SEARCH_CACHE_SIZE`. -/
theorem cacheEviction_spec {κ ν : Type} [DecidableEq κ] (entries : List (κ × ν))
    (hnd : (entries.map Prod.fst).Nodup)
    (hlen : entries.length = MAX_SEARCH_CACHE_SIZE + 5) :
    enforceSearchCacheLimit (entries.foldl (fun c e => cacheSet c e.1 e.2) []) =
      entries.drop 5 ∧
    (enforceSearchCacheLimit (entries.foldl (fun c e => cacheSet c e.1 e.2) [])).length =
      MAX_SEARCH_CACHE_SIZE ∧
    (∀ e ∈ entries.take 5,
      ¬ e.1 ∈ (enforceSearchCacheLimit
        (entries.foldl (fun c e => cacheSet c e.1 e.2) [])).map Prod.fst) ∧
    (∀ e ∈ entries.drop 5,
      e.1 ∈ (enforceSearchCacheLimit
        (entries.foldl (fun c e => cacheSet c e.1 e.2) [])).map Prod.fst) ∧
    (∀ c : List (κ × ν), enforceSearchCacheLimit c = c.drop (c.length - MAX_SEARCH_CACHE_SIZE)) := by
  have hfold : entries.foldl (fun c e => cacheSet c e.1 e.2) [] = entries :=
    foldl_cacheSet_of_nodup entries [] (by simpa using hnd)
  have hdrop : enforceSearchCacheLimit entries = entries.drop 5 := by
    unfold enforceSearchCacheLimit
    rw [enforceLimit_eq_drop, hlen]
    have : MAX_SEARCH_CACHE_SIZE + 5 - MAX_SEARCH_CACHE_SIZE = 5 := by omega
    rw [this]
  have hsplit : (entries.take 5).map Prod.fst ++ (entries.drop 5).map Prod.fst =
      entries.map Prod.fst := by
    rw [← List.map_append, List.take_append_drop]
  refine ⟨by rw [hfold, hdrop], ?_, ?_, ?_, fun c => enforceLimit_eq_drop _ c⟩
  · rw [hfold, hdrop, List.length_drop, hlen]
    omega
  · intro e he
    rw [hfold, hdrop]
    have hnd2 : ((entries.take 5).map Prod.fst ++ (entries.drop 5).map Prod.fst).Nodup := by
      rw [hsplit]
      exact hnd
    have hd := (List.nodup_append.mp hnd2).2.2
    exact hd (List.mem_map_of_mem Prod.fst he)
  · intro e he
    rw [hfold, hdrop]
    exact List.mem_map_of_mem Prod.fst he

/-- Witness for C8: 505 distinct numeric keys. -/
theorem cacheEviction_spec_witness :
    enforceSearchCacheLimit
        (((List.range (MAX_SEARCH_CACHE_SIZE + 5)).map (fun n => (n, n))).foldl
          (fun c e => cacheSet c e.1 e.2) []) =
      ((List.range (MAX_SEARCH_CACHE_SIZE + 5)).map (fun n => (n, n))).drop 5 ∧
    (enforceSearchCacheLimit
        (((List.range (MAX_SEARCH_CACHE_SIZE + 5)).map (fun n => (n, n))).foldl
          (fun c e => cacheSet c e.1 e.2) [])).length = MAX_SEARCH_CACHE_SIZE ∧
    (∀ e ∈ ((List.range (MAX_SEARCH_CACHE_SIZE + 5)).map (fun n => (n, n))).take 5,
      ¬ e.1 ∈ (enforceSearchCacheLimit
        (((List.range (MAX_SEARCH_CACHE_SIZE + 5)).map (fun n => (n, n))).foldl
          (fun c e => cacheSet c e.1 e.2) [])).map Prod.fst) ∧
    (∀ e ∈ ((List.range (MAX_SEARCH_CACHE_SIZE + 5)).map (fun n => (n, n))).drop 5,
      e.1 ∈ (enforceSearchCacheLimit
        (((List.range (MAX_SEARCH_CACHE_SIZE + 5)).map (fun n => (n, n))).foldl
          (fun c e => cacheSet c e.1 e.2) [])).map Prod.fst) ∧
    (∀ c : List (Nat × Nat),
      enforceSearchCacheLimit c = c.drop (c.length - MAX_SEARCH_CACHE_SIZE)) :=
  cacheEviction_spec ((List.range (MAX_SEARCH_CACHE_SIZE + 5)).map (fun n => (n, n)))
    (by
      have : ((List.range (MAX_SEARCH_CACHE_SIZE + 5)).map
          (fun n => ((n, n) : Nat × Nat))).map Prod.fst =
          List.range (MAX_SEARCH_CACHE_SIZE + 5) := by
        rw [List.map_map]
        exact List.map_id _
      rw [this]
      exact List.nodup_range _)
    (by simp)

/-! ## Store-key lemmas -/

theorem any_key_iff (s : Store) (k : String) :
    (List.any s (fun e => e.1 = k)) = true ↔ k ∈ storeUris s := by
  simp [List.any_eq_true, storeUris, List.mem_map]

theorem storeUris_storeSet (s : Store) (k : String) (p : Post) :
    storeUris (storeSet s k p) = addFirst (storeUris s) k := by
  unfold storeSet
  by_cases h : k ∈ storeUris s
  · rw [if_pos ((any_key_iff s k).mpr h), addFirst_of_mem h]
    unfold storeUris
    rw [List.map_map]
    apply List.map_congr_left
    intro e _
    simp only [Function.comp_apply]
    by_cases he : e.1 = k
    · rw [if_pos he, he]
    · rw [if_neg he]
  · rw [if_neg (fun hc => h ((any_key_iff s k).mp hc)), addFirst_of_not_mem h]
    simp [storeUris]

theorem storeUris_ingestOne (s : Store) (p : Post) :
    storeUris (ingestOne s p) =
      if p.uri = "" then storeUris s else addFirst (storeUris s) p.uri := by
  unfold ingestOne
  by_cases h : p.uri = ""
  · rw [if_pos h, if_pos h]
  · rw [if_neg h, if_neg h]
    cases hget : storeGet s p.uri
    · simp only [storeUris_storeSet]
    · simp only [storeUris_storeSet]

theorem mem_storeUris_ingestPosts (posts : List Post) :
    ∀ (s : Store) (u : String),
      u ∈ storeUris (ingestPosts s posts) ↔
        u ∈ storeUris s ∨ (¬ u = "" ∧ u ∈ urisOf posts) := by
  induction posts with
  | nil =>
    intro s u
    simp [ingestPosts, urisOf]
  | cons p rest ih =>
    intro s u
    have hstep : ingestPosts s (p :: rest) = ingestPosts (ingestOne s p) rest := rfl
    rw [hstep, ih (ingestOne s p) u, storeUris_ingestOne]
    have hcons : u ∈ urisOf (p :: rest) ↔ u = p.uri ∨ u ∈ urisOf rest := by
      simp [urisOf]
    rw [hcons]
    by_cases hp : p.uri = ""
    · rw [if_pos hp]
      constructor
      · rintro (hs | ⟨hne, hr⟩)
        · exact Or.inl hs
        · exact Or.inr ⟨hne, Or.inr hr⟩
      · rintro (hs | ⟨hne, (rfl | hr)⟩)
        · exact Or.inl hs
        · exact absurd hp hne
        · exact Or.inr ⟨hne, hr⟩
    · rw [if_neg hp, mem_addFirst]
      constructor
      · rintro ((hs | rfl) | ⟨hne, hr⟩)
        · exact Or.inl hs
        · exact Or.inr ⟨hp, Or.inl rfl⟩
        · exact Or.inr ⟨hne, Or.inr hr⟩
      · rintro (hs | ⟨hne, (rfl | hr)⟩)
        · exact Or.inl (Or.inl hs)
        · exact Or.inl (Or.inr rfl)
        · exact Or.inr ⟨hne, hr⟩

/-! ## Claim C7 — settlement classification -/

/-- `r.status === 'fulfilled'`. -/
def isOkResult : TermResult → Bool
  | Except.ok _ => true
  | Except.error _ => false

theorem ingestSettledResults_ignores_failures (results : List TermResult) :
    ∀ store : Store,
      ingestSettledResults store results =
        ingestSettledResults store (results.filter isOkResult) := by
  induction results with
  | nil => intro store; rfl
  | cons r rest ih =>
    intro store
    cases r with
    | ok ps =>
      have h1 : (Except.ok ps :: rest).filter isOkResult =
          Except.ok ps :: rest.filter isOkResult := by
        simp [isOkResult]
      rw [h1]
      exact ih (ingestPosts store ps)
    | error m =>
      have h1 : (Except.error m :: rest).filter isOkResult = rest.filter isOkResult := by
        simp [isOkResult]
      rw [h1]
      exact ih store

theorem mem_storeUris_ingestSettledResults_mono (results : List TermResult) :
    ∀ (store : Store) (u : String),
      u ∈ storeUris store → u ∈ storeUris (ingestSettledResults store results) := by
  induction results with
  | nil => intro store u h; exact h
  | cons r rest ih =>
    intro store u h
    cases r with
    | ok ps =>
      exact ih (ingestPosts store ps) u ((mem_storeUris_ingestPosts ps store u).mpr (Or.inl h))
    | error m => exact ih store u h

theorem success_posts_reach_store (results : List TermResult) :
    ∀ (store : Store) (ps : List Post), Except.ok ps ∈ results →
      ∀ p ∈ ps, ¬ p.uri = "" → p.uri ∈ storeUris (ingestSettledResults store results) := by
  induction results with
  | nil =>
    intro store ps h
    cases h
  | cons r rest ih =>
    intro store ps hps p hp hne
    rcases List.mem_cons.mp hps with rfl | htail
    · apply mem_storeUris_ingestSettledResults_mono rest
      exact (mem_storeUris_ingestPosts ps store p.uri).mpr
        (Or.inr ⟨hne, List.mem_map_of_mem (fun x => x.uri) hp⟩)
    · cases r with
      | ok qs => exact ih (ingestPosts store qs) ps htail p hp hne
      | error m => exact ih store ps htail p hp hne

/-- Claim C7: once all term fetches of a still-current search settle
with `n` terms and `k` failures, the surfaced status is a single error
built from the first failure's message when `k = n`, the partial count
message `"k/n terms failed to load"` when `0 < k < n`, and the cleared
indicator when `k = 0`; failed terms do not affect what the successful
terms ingested, and every successful term's posts are in the store. -/
theorem settlement_classification (store : Store) (results : List TermResult) :
    ((0 < (searchFailures results).length ∧
        (searchFailures results).length = results.length) →
      searchOutcomeStatus results =
        some ("Search failed: " ++ firstFailureMessage results)) ∧
    ((0 < (searchFailures results).length ∧
        (searchFailures results).length < results.length) →
      searchOutcomeStatus results =
        some (toString (searchFailures results).length ++ "/" ++ toString results.length
          ++ " terms failed to load")) ∧
    ((searchFailures results).length = 0 → searchOutcomeStatus results = none) ∧
    ingestSettledResults store results =
      ingestSettledResults store (results.filter isOkResult) ∧
    (∀ ps, Except.ok ps ∈ results → ∀ p ∈ ps, ¬ p.uri = "" →
      p.uri ∈ storeUris (ingestSettledResults store results)) := by
  refine ⟨?_, ?_, ?_, ingestSettledResults_ignores_failures results store,
    fun ps hps p hp hne => success_posts_reach_store results store ps hps p hp hne⟩
  · rintro ⟨hk, hkn⟩
    unfold searchOutcomeStatus
    simp only []
    rw [if_pos hk, if_pos hkn]
  · rintro ⟨hk, hkn⟩
    unfold searchOutcomeStatus
    simp only []
    rw [if_pos hk, if_neg (by omega)]
  · intro hk
    unfold searchOutcomeStatus
    simp only []
    rw [if_neg (by omega)]

/-- A settled batch with one success and one failure. -/
def c7Results : List TermResult := [Except.ok [{ uri := "at://1" }], Except.error "boom"]

/-- Witness for C7: one of two terms failed; the partial-failure message
is surfaced and the successful term's post is in the store. -/
theorem settlement_classification_witness :
    searchOutcomeStatus c7Results =
      some (toString (searchFailures c7Results).length ++ "/" ++ toString c7Results.length
        ++ " terms failed to load") ∧
    "at://1" ∈ storeUris (ingestSettledResults [] c7Results) :=
  ⟨(settlement_classification [] c7Results).2.1 ⟨by decide, by decide⟩,
   (settlement_classification [] c7Results).2.2.2.2 [{ uri := "at://1" }] (by decide)
     { uri := "at://1" } (by decide) (by decide)⟩

/-! ## Claim C6 — auto-refresh pending exactness -/

theorem mem_urisOf_append (a b : List Post) (u : String) :
    u ∈ urisOf (a ++ b) ↔ u ∈ urisOf a ∨ u ∈ urisOf b := by
  simp [urisOf]

theorem mem_urisOf_filter_not_mem (l : List Post) (ex : List String) (u : String) :
    u ∈ urisOf (l.filter (fun p => ¬ p.uri ∈ ex)) ↔ u ∈ urisOf l ∧ ¬ u ∈ ex := by
  unfold urisOf
  constructor
  · intro h
    obtain ⟨p, hp, rfl⟩ := List.mem_map.mp h
    have hmf := List.mem_filter.mp hp
    refine ⟨List.mem_map_of_mem _ hmf.1, ?_⟩
    simpa using hmf.2
  · rintro ⟨h1, h2⟩
    obtain ⟨p, hp, rfl⟩ := List.mem_map.mp h1
    exact List.mem_map_of_mem _ (List.mem_filter.mpr ⟨hp, by simpa using h2⟩)

/-- Claim C6: the identifiers staged by one auto-refresh cycle are
exactly the refreshed, filter-passing identifiers present in neither the
(pruned) main ingest store nor the (re-filtered) pending list; the new
pending list holds exactly the old pending identifiers plus the staged
ones; and an explicit merge folds the pending identifiers into the store
and leaves the pending list empty. -/
theorem autoRefresh_pending_exactness (now : Int) (hours : Option Int) (minLikes : Int)
    (sortMode : String) (store : Store) (allPosts pending : List Post)
    (fetched : List (List Post)) (u : String) :
    (u ∈ (refreshSearch now hours minLikes sortMode store pending fetched).newUris ↔
      u ∈ urisOf (refreshLatestPosts now hours minLikes fetched) ∧
      ¬ u ∈ storeUris (refreshSearch now hours minLikes sortMode store pending fetched).store ∧
      ¬ u ∈ urisOf (refreshFilteredPending now hours minLikes pending)) ∧
    (u ∈ urisOf (refreshSearch now hours minLikes sortMode store pending fetched).pending ↔
      u ∈ urisOf (refreshFilteredPending now hours minLikes pending) ∨
      u ∈ (refreshSearch now hours minLikes sortMode store pending fetched).newUris) ∧
    (¬ pending = [] →
      (mergePendingPosts now hours minLikes sortMode store allPosts pending).2.2 = [] ∧
      (u ∈ storeUris (mergePendingPosts now hours minLikes sortMode store allPosts pending).1 ↔
        u ∈ storeUris store ∨ (¬ u = "" ∧ u ∈ urisOf pending))) := by
  have hnew : (refreshSearch now hours minLikes sortMode store pending fetched).newUris =
      urisOf (refreshNewPosts now hours minLikes
        (pruneIngestedPostsByCurrentFilters now hours minLikes store).1
        (refreshFilteredPending now hours minLikes pending) fetched) := rfl
  have hstore : (refreshSearch now hours minLikes sortMode store pending fetched).store =
      (pruneIngestedPostsByCurrentFilters now hours minLikes store).1 := rfl
  have hpending : (refreshSearch now hours minLikes sortMode store pending fetched).pending =
      (if (refreshNewPosts now hours minLikes
            (pruneIngestedPostsByCurrentFilters now hours minLikes store).1
            (refreshFilteredPending now hours minLikes pending) fetched).isEmpty then
        refreshFilteredPending now hours minLikes pending
      else deduplicatePosts (refreshFilteredPending now hours minLikes pending ++
        refreshNewPosts now hours minLikes
          (pruneIngestedPostsByCurrentFilters now hours minLikes store).1
          (refreshFilteredPending now hours minLikes pending) fetched)) := rfl
  refine ⟨?_, ?_, ?_⟩
  · rw [hnew, hstore]
    unfold refreshNewPosts
    rw [mem_urisOf_filter_not_mem]
    constructor
    · rintro ⟨hl, hnotex⟩
      rw [List.mem_append] at hnotex
      push_neg at hnotex
      exact ⟨hl, hnotex.1, hnotex.2⟩
    · rintro ⟨hl, h1, h2⟩
      refine ⟨hl, ?_⟩
      rw [List.mem_append]
      push_neg
      exact ⟨h1, h2⟩
  · rw [hpending, hnew]
    by_cases hemp : (refreshNewPosts now hours minLikes
        (pruneIngestedPostsByCurrentFilters now hours minLikes store).1
        (refreshFilteredPending now hours minLikes pending) fetched).isEmpty = true
    · rw [if_pos hemp]
      rw [List.isEmpty_iff] at hemp
      rw [hemp]
      simp [urisOf]
    · rw [if_neg hemp, mem_urisOf_deduplicatePosts, mem_urisOf_append]
  · intro hne
    have hempty : pending.isEmpty = false := by
      cases pending
      · exact absurd rfl hne
      · rfl
    unfold mergePendingPosts
    rw [hempty]
    simp only [Bool.false_eq_true, if_false]
    exact ⟨by trivial, mem_storeUris_ingestPosts pending store u⟩

/-- Witness for C6: main set `{A, B}`, pending `{D}`, refresh returns
`{B, C}`; the staged identifiers are characterised at `C`, and merging
the pending list folds it into the store and clears it. -/
theorem autoRefresh_pending_exactness_witness :
    ("at://C" ∈ (refreshSearch 0 (some 1) 0 "top"
        [("at://A", { uri := "at://A" }), ("at://B", { uri := "at://B" })]
        [{ uri := "at://D" }]
        [[{ uri := "at://B", matchedTerm := "t" }, { uri := "at://C", matchedTerm := "t" }]]).newUris ↔
      "at://C" ∈ urisOf (refreshLatestPosts 0 (some 1) 0
        [[{ uri := "at://B", matchedTerm := "t" }, { uri := "at://C", matchedTerm := "t" }]]) ∧
      ¬ "at://C" ∈ storeUris (refreshSearch 0 (some 1) 0 "top"
        [("at://A", { uri := "at://A" }), ("at://B", { uri := "at://B" })]
        [{ uri := "at://D" }]
        [[{ uri := "at://B", matchedTerm := "t" }, { uri := "at://C", matchedTerm := "t" }]]).store ∧
      ¬ "at://C" ∈ urisOf (refreshFilteredPending 0 (some 1) 0 [{ uri := "at://D" }])) ∧
    ("at://C" ∈ urisOf (refreshSearch 0 (some 1) 0 "top"
        [("at://A", { uri := "at://A" }), ("at://B", { uri := "at://B" })]
        [{ uri := "at://D" }]
        [[{ uri := "at://B", matchedTerm := "t" }, { uri := "at://C", matchedTerm := "t" }]]).pending ↔
      "at://C" ∈ urisOf (refreshFilteredPending 0 (some 1) 0 [{ uri := "at://D" }]) ∨
      "at://C" ∈ (refreshSearch 0 (some 1) 0 "top"
        [("at://A", { uri := "at://A" }), ("at://B", { uri := "at://B" })]
        [{ uri := "at://D" }]
        [[{ uri := "at://B", matchedTerm := "t" }, { uri := "at://C", matchedTerm := "t" }]]).newUris) ∧
    (¬ ([{ uri := "at://D" }] : List Post) = [] →
      (mergePendingPosts 0 (some 1) 0 "top"
        [("at://A", { uri := "at://A" }), ("at://B", { uri := "at://B" })] []
        [{ uri := "at://D" }]).2.2 = [] ∧
      ("at://C" ∈ storeUris (mergePendingPosts 0 (some 1) 0 "top"
          [("at://A", { uri := "at://A" }), ("at://B", { uri := "at://B" })] []
          [{ uri := "at://D" }]).1 ↔
        "at://C" ∈ storeUris [("at://A", { uri := "at://A" }), ("at://B", { uri := "at://B" })] ∨
        (¬ "at://C" = "" ∧ "at://C" ∈ urisOf [{ uri := "at://D" }]))) :=
  autoRefresh_pending_exactness 0 (some 1) 0 "top"
    [("at://A", { uri := "at://A" }), ("at://B", { uri := "at://B" })] []
    [{ uri := "at://D" }]
    [[{ uri := "at://B", matchedTerm := "t" }, { uri := "at://C", matchedTerm := "t" }]]
    "at://C"

/-! ## Claim C9 — auto-refresh prunes the store by the current filters -/

theorem eq_of_mem_of_nodup_keys :
    ∀ (s : Store), (storeUris s).Nodup →
      ∀ (u : String) (p p' : Post), (u, p) ∈ s → (u, p') ∈ s → p = p' := by
  intro s
  induction s with
  | nil =>
    intro _ u p p' h
    cases h
  | cons e rest ih =>
    intro hnd u p p' hp hp'
    have hnd2 : ¬ e.1 ∈ storeUris rest ∧ (storeUris rest).Nodup := by
      rw [show storeUris (e :: rest) = e.1 :: storeUris rest from rfl,
        List.nodup_cons] at hnd
      exact hnd
    rcases List.mem_cons.mp hp with h1 | h1 <;> rcases List.mem_cons.mp hp' with h2 | h2
    · exact (Prod.ext_iff.mp (h1.trans h2.symm)).2
    · exfalso
      apply hnd2.1
      rw [← h1]
      exact List.mem_map_of_mem (fun x => x.1) h2
    · exfalso
      apply hnd2.1
      rw [← h2]
      exact List.mem_map_of_mem (fun x => x.1) h1
    · exact ih hnd2.2 u p p' h1 h2

/-- Claim C9: at the start of every auto-refresh cycle, before fetching,
the store keeps exactly the entries passing the current time window and
likes threshold, and every stored post failing either filter is removed
from the store and absent from the visible result list — so auto-refresh
can shrink the main result set. -/
theorem refresh_prune_spec (now : Int) (hours : Option Int) (minLikes : Int)
    (sortMode : String) (store : Store) (pending : List Post) (fetched : List (List Post))
    (hNodup : (storeUris store).Nodup)
    (hWF : ∀ e ∈ store, (e : String × Post).2.uri = e.1) :
    (∀ (u : String) (p : Post),
      (u, p) ∈ (refreshSearch now hours minLikes sortMode store pending fetched).store ↔
        (u, p) ∈ store ∧
        now - normalizeHours hours * 3600000 ≤ getPostTimestamp p ∧
        (if 0 < minLikes then minLikes else 0) ≤ likeVal p) ∧
    (∀ (u : String) (p : Post), (u, p) ∈ store →
      (getPostTimestamp p < now - normalizeHours hours * 3600000 ∨
        likeVal p < (if 0 < minLikes then minLikes else 0)) →
      ¬ u ∈ storeUris (refreshSearch now hours minLikes sortMode store pending fetched).store ∧
      ∀ q ∈ (refreshSearch now hours minLikes sortMode store pending fetched).allPosts,
        ¬ q.uri = u) := by
  have hstore : (refreshSearch now hours minLikes sortMode store pending fetched).store =
      store.filter (fun e =>
        decide (now - normalizeHours hours * 3600000 ≤ getPostTimestamp e.2) &&
        decide ((if 0 < minLikes then minLikes else 0) ≤ likeVal e.2)) := rfl
  have hall : (refreshSearch now hours minLikes sortMode store pending fetched).allPosts =
      sortPosts (storeValues
        (store.filter (fun e =>
          decide (now - normalizeHours hours * 3600000 ≤ getPostTimestamp e.2) &&
          decide ((if 0 < minLikes then minLikes else 0) ≤ likeVal e.2)))) sortMode := rfl
  have hmemchar : ∀ (u : String) (p : Post),
      (u, p) ∈ (refreshSearch now hours minLikes sortMode store pending fetched).store ↔
        (u, p) ∈ store ∧
        now - normalizeHours hours * 3600000 ≤ getPostTimestamp p ∧
        (if 0 < minLikes then minLikes else 0) ≤ likeVal p := by
    intro u p
    rw [hstore, List.mem_filter]
    simp only [Bool.and_eq_true, decide_eq_true_eq]
  refine ⟨hmemchar, ?_⟩
  intro u p hmem hfail
  have hnotin : ¬ u ∈ storeUris
      (refreshSearch now hours minLikes sortMode store pending fetched).store := by
    intro hc
    rw [hstore] at hc
    obtain ⟨e, he, heq⟩ := List.mem_map.mp hc
    have he2 : e ∈ store := (List.mem_filter.mp he).1
    have hue : (u, e.2) ∈ store := by
      have : e = (u, e.2) := by
        rw [← heq]
      rw [← this]
      exact he2
    have hpe : p = e.2 := eq_of_mem_of_nodup_keys store hNodup u p e.2 hmem hue
    have hpass := (List.mem_filter.mp he).2
    simp only [Bool.and_eq_true, decide_eq_true_eq] at hpass
    rw [← hpe] at hpass
    rcases hfail with hf | hf
    · omega
    · omega
  refine ⟨hnotin, ?_⟩
  intro q hq hqu
  rw [hall] at hq
  have hq2 := mem_sortPosts.mp hq
  unfold storeValues at hq2
  obtain ⟨e, he, rfl⟩ := List.mem_map.mp hq2
  apply hnotin
  rw [hstore]
  have hwfe : e.2.uri = e.1 := hWF e (List.mem_filter.mp he).1
  rw [hwfe] at hqu
  rw [hstore] at hnotin
  exact absurd (hqu ▸ List.mem_map_of_mem (fun x => x.1) he) hnotin

/-- The C9 witness store: one entry aged out of the window, one inside. -/
def c9Store : Store :=
  [("at://old", { uri := "at://old", createdAt := DateVal.time 0 }),
   ("at://new", { uri := "at://new", createdAt := DateVal.time 9000000 })]

/-- Witness for C9: with `now = 10000000` and a 1-hour window, the aged
entry is pruned out of the store, and the fresh entry's membership is
characterised. -/
theorem refresh_prune_spec_witness :
    (¬ "at://old" ∈ storeUris (refreshSearch 10000000 (some 1) 0 "top" c9Store [] []).store ∧
      ∀ q ∈ (refreshSearch 10000000 (some 1) 0 "top" c9Store [] []).allPosts,
        ¬ q.uri = "at://old") ∧
    (("at://new", ({ uri := "at://new", createdAt := DateVal.time 9000000 } : Post)) ∈
        (refreshSearch 10000000 (some 1) 0 "top" c9Store [] []).store ↔
      ("at://new", ({ uri := "at://new", createdAt := DateVal.time 9000000 } : Post)) ∈ c9Store ∧
      (10000000:Int) - normalizeHours (some 1) * 3600000 ≤
        getPostTimestamp { uri := "at://new", createdAt := DateVal.time 9000000 } ∧
      (if (0:Int) < 0 then (0:Int) else 0) ≤
        likeVal { uri := "at://new", createdAt := DateVal.time 9000000 }) :=
  ⟨(refresh_prune_spec 10000000 (some 1) 0 "top" c9Store [] [] (by decide) (by decide)).2
      "at://old" { uri := "at://old", createdAt := DateVal.time 0 } (by decide) (by decide),
   (refresh_prune_spec 10000000 (some 1) 0 "top" c9Store [] [] (by decide) (by decide)).1
      "at://new" { uri := "at://new", createdAt := DateVal.time 9000000 }⟩

/-! ## Claim C10 — ingest store term invariant -/

/-- The invariant claimed of every stored post: `matchedTerms` is a
case-insensitively duplicate-free list and `matchedTerm` is its first
element (the empty string when the list is empty). -/
def postTermsOk (p : Post) : Bool :=
  match p.matchedTerms with
  | some ts => decide ((ts.map jsToLower).Nodup) && decide (p.matchedTerm = ts.headD "")
  | none => false

/-- The invariant over the whole ingest store. -/
def storeTermsInvariant (s : Store) : Prop :=
  ∀ e ∈ s, postTermsOk (e : String × Post).2 = true

instance (s : Store) : Decidable (storeTermsInvariant s) :=
  inferInstanceAs (Decidable (∀ e ∈ s, postTermsOk (e : String × Post).2 = true))

/-- Claim C10, counterexample: ingesting a single fresh post that
arrives already carrying a case-insensitively duplicated `matchedTerms`
list (as `deduplicatePosts`, whose tag merge is case-sensitive, can
produce) stores that list unnormalised, so the invariant fails. -/
theorem ingest_terms_invariant_counterexample :
    ¬ storeTermsInvariant
      (ingestPosts [] [{ uri := "at://u", matchedTerm := "A", matchedTerms := some ["A", "a"] }]) := by
  decide

theorem mergeAdd_fold_inv :
    ∀ (l : List String) (st : List String × List String),
      st.1 = st.2.map jsToLower → st.1.Nodup →
      ((l.foldl mergeAdd st).1 = (l.foldl mergeAdd st).2.map jsToLower ∧
        (l.foldl mergeAdd st).1.Nodup) := by
  intro l
  induction l with
  | nil =>
    intro st h1 h2
    exact ⟨h1, h2⟩
  | cons t rest ih =>
    intro st h1 h2
    rw [List.foldl_cons]
    have hstep : (mergeAdd st t).1 = (mergeAdd st t).2.map jsToLower ∧
        (mergeAdd st t).1.Nodup := by
      unfold mergeAdd
      by_cases ht : t = ""
      · rw [if_pos ht]
        exact ⟨h1, h2⟩
      · rw [if_neg ht]
        by_cases hseen : jsToLower t ∈ st.1
        · rw [if_pos hseen]
          exact ⟨h1, h2⟩
        · rw [if_neg hseen]
          constructor
          · show st.1 ++ [jsToLower t] = (st.2 ++ [t]).map jsToLower
            rw [List.map_append, ← h1]
            rfl
          · show (st.1 ++ [jsToLower t]).Nodup
            rw [List.nodup_append]
            refine ⟨h2, by simp, ?_⟩
            intro a ha hax
            rw [List.mem_singleton] at hax
            exact hseen (hax ▸ ha)
    exact ih (mergeAdd st t) hstep.1 hstep.2

theorem mergeMatchedTerms_ciNodup (a b : List String) :
    ((mergeMatchedTerms a b).map jsToLower).Nodup := by
  have h := mergeAdd_fold_inv (a ++ b) ([], []) rfl List.nodup_nil
  unfold mergeMatchedTerms
  rw [← h.1]
  exact h.2

theorem storeTermsInvariant_storeSet {s : Store} {k : String} {p : Post}
    (hs : storeTermsInvariant s) (hp : postTermsOk p = true) :
    storeTermsInvariant (storeSet s k p) := by
  intro e he
  unfold storeSet at he
  by_cases h : List.any s (fun x => x.1 = k) = true
  · rw [if_pos h] at he
    obtain ⟨e0, he0, rfl⟩ := List.mem_map.mp he
    by_cases hk : e0.1 = k
    · rw [if_pos hk]
      exact hp
    · rw [if_neg hk]
      exact hs e0 he0
  · rw [if_neg h] at he
    rcases List.mem_append.mp he with h1 | h1
    · exact hs e h1
    · rw [List.mem_singleton] at h1
      subst h1
      exact hp

theorem ingestOne_preserves_terms_invariant {s : Store} {p : Post}
    (hs : storeTermsInvariant s)
    (hp : ((getMatchedTermsForPost p).map jsToLower).Nodup) :
    storeTermsInvariant (ingestOne s p) := by
  unfold ingestOne
  by_cases hu : p.uri = ""
  · rw [if_pos hu]
    exact hs
  · rw [if_neg hu]
    cases hget : storeGet s p.uri with
    | none =>
      apply storeTermsInvariant_storeSet hs
      show (decide (((getMatchedTermsForPost p).map jsToLower).Nodup) &&
        decide ((getMatchedTermsForPost p).headD "" =
          (getMatchedTermsForPost p).headD "")) = true
      rw [Bool.and_eq_true, decide_eq_true_eq, decide_eq_true_eq]
      exact ⟨hp, rfl⟩
    | some existing =>
      apply storeTermsInvariant_storeSet hs
      show (decide (((mergeMatchedTerms (getMatchedTermsForPost existing)
          (getMatchedTermsForPost p)).map jsToLower).Nodup) &&
        decide ((mergeMatchedTerms (getMatchedTermsForPost existing)
            (getMatchedTermsForPost p)).headD "" =
          (mergeMatchedTerms (getMatchedTermsForPost existing)
            (getMatchedTermsForPost p)).headD "")) = true
      rw [Bool.and_eq_true, decide_eq_true_eq, decide_eq_true_eq]
      exact ⟨mergeMatchedTerms_ciNodup _ _, rfl⟩

/-- Claim C10 (amended): provided every ingested post's effective term
list is itself case-insensitively duplicate-free (which holds for every
in-app call site, where tags come from the case-insensitively unique
expanded term set), `ingestPosts` preserves the invariant that every
stored post's `matchedTerms` is case-insensitively duplicate-free with
`matchedTerm` equal to its first element (or empty when the list is
empty), even when a later fetch of the same identifier overwrites the
stored post's other fields. -/
theorem ingestPosts_preserves_terms_invariant (posts : List Post) :
    ∀ (store : Store), storeTermsInvariant store →
      (∀ p ∈ posts, ((getMatchedTermsForPost p).map jsToLower).Nodup) →
      storeTermsInvariant (ingestPosts store posts) := by
  induction posts with
  | nil =>
    intro store hs _
    exact hs
  | cons p rest ih =>
    intro store hs hposts
    exact ih (ingestOne store p)
      (ingestOne_preserves_terms_invariant hs (hposts p (List.mem_cons_self _ _)))
      (fun q hq => hposts q (List.mem_cons_of_mem p hq))

/-- A stored post already carrying its normalised annotations. -/
def c10StoredPost : Post :=
  { uri := "at://u", matchedTerm := "React", matchedTerms := some ["React"] }

/-- Witness for C10: an overwriting second fetch of `at://u` under a
differently-cased tag keeps the invariant. -/
theorem ingestPosts_preserves_terms_invariant_witness :
    storeTermsInvariant
      (ingestPosts [("at://u", c10StoredPost)]
        [{ uri := "at://u", matchedTerm := "REACT", likeCount := some 7 },
         { uri := "at://v", matchedTerm := "vue" }]) :=
  ingestPosts_preserves_terms_invariant
    [{ uri := "at://u", matchedTerm := "REACT", likeCount := some 7 },
     { uri := "at://v", matchedTerm := "vue" }]
    [("at://u", c10StoredPost)]
    (by decide) (by decide)

end BskySearch
